import Mathlib

/-
  Verification of the chunked world block store of the SwarmBot repository
  (src/storage/blocks.rs).

  The store itself (WorldBlocks and all its operations, block_chunk_iter,
  the ChunkLocation coordinate mapping) is translated from
  src/storage/blocks.rs.  The supporting modules storage/block.rs,
  storage/chunk.rs and client/pathfind.rs are not among the provided
  sources; the data types and chunk-column operations they define
  (BlockLocation, BlockState, BlockApprox, ChunkColumn, ChunkData and its
  get/set/select_up/all_at/modify operations, MinHeapNode) are modelled
  from the natural-language spec, as marked on each definition.

  Machine integers (i32, i16, u8, usize) are modelled as Int/Nat; the
  only place the source relies on wrap-around is the cast y as u8 in
  set_block and y_slice, modelled explicitly as Int.emod _ 256.
-/

/-- Modelled from the spec: BlockState (storage/block.rs is not among the
sources) is an opaque numeric identifier for a block type; equality is value
equality.  The concrete ids below are arbitrary; only AIR and STONE are
needed and they are distinct. -/
structure BlockState where
  id : Nat
  deriving DecidableEq

/-- Modelled from the spec: the air block, the content of an empty (default)
chunk cell. -/
def BlockState.AIR : BlockState := ⟨0⟩

/-- Modelled from the spec: the solid ground block used by the procedural
generators. -/
def BlockState.STONE : BlockState := ⟨1⟩

/-- Modelled from the spec: result of a point query, either
Realized (chunk loaded, value known) or an unresolved marker (the column at
that position is only a placeholder). -/
inductive BlockApprox where
  | Realized : BlockState → BlockApprox
  | Unresolved : BlockApprox
  deriving DecidableEq

/-- Modelled from the spec: integer triple of global block coordinates.
In the source x and z are i32 and y is i16; all are modelled as Int. -/
structure BlockLocation where
  x : Int
  y : Int
  z : Int
  deriving DecidableEq

/-- Modelled from the spec: squared Euclidean distance between two block
locations.  The source computes it as an f64; for the orderings used here it
is modelled exactly on Int. -/
def BlockLocation.dist2 (a b : BlockLocation) : Int :=
  (a.x - b.x) ^ 2 + (a.y - b.y) ^ 2 + (a.z - b.z) ^ 2

/-- ChunkLocation(pub i32, pub i32) from src/storage/blocks.rs; the two
fields are the .0 and .1 of the source tuple struct. -/
structure ChunkLocation where
  cx : Int
  cz : Int
  deriving DecidableEq

/-- Arithmetic right shift by 4 of the source (x >> 4 on i32), i.e. floor
division by 16.  Int division / is Euclidean division, which agrees with
floor division for the positive divisor 16. -/
def shr4 (n : Int) : Int := n / 16

/-- The local offset computation of get_block and set_block in
src/storage/blocks.rs: (x - (chunk_x << 4)) as u8.  The value is always in
[0, 16), so the u8 cast (modelled by emod 256) never truncates. -/
def localOff (x : Int) : Nat := ((x - 16 * shr4 x) % 256).toNat

/-- impl From BlockLocation for ChunkLocation in src/storage/blocks.rs:
Self(loc.x >> 4, loc.z >> 4). -/
def chunkOf (loc : BlockLocation) : ChunkLocation := ⟨shr4 loc.x, shr4 loc.z⟩

/-- Modelled from the spec: the block contents of a fully materialized chunk
column (ChunkData over HighMemoryChunkSection in storage/chunk.rs, which is
not among the sources): per-level block arrays covering a 16 x 16 x 256
column.  Modelled as a function from the flat cell index
x + 16 * z + 256 * y, the index layout block_chunk_iter and y_slice in
src/storage/blocks.rs decode. -/
def ChunkData : Type := Nat → BlockState

/-- Modelled from the spec: read one cell of a materialized column. -/
def ChunkData.get (d : ChunkData) (x y z : Nat) : BlockState :=
  d (x + 16 * z + 256 * y)

/-- Modelled from the spec: write one cell of a materialized column. -/
def ChunkData.set (d : ChunkData) (x y z : Nat) (s : BlockState) : ChunkData :=
  fun i => if i = x + 16 * z + 256 * y then s else d i

/-- Modelled from the spec: the default (empty) column contents, all air. -/
def ChunkData.emptyData : ChunkData := fun _ => BlockState.AIR

/-- Modelled from the spec: select_up of storage/chunk.rs (not among the
sources) yields, in ascending order, the flat cell indices whose state
satisfies the selector; block_chunk_iter in src/storage/blocks.rs decodes an
index idx as x = idx % 16, z = (idx >> 4) % 16, y = (idx >> 4) / 16. -/
def ChunkData.select_up (d : ChunkData) (selector : BlockState → Bool) : List Nat :=
  (List.range 65536).filter (fun idx => selector (d idx))

/-- Modelled from the spec: all_at of storage/chunk.rs (not among the
sources) returns the 256 states of one vertical level y; y_slice in
src/storage/blocks.rs decodes the array index idx as dx = idx % 16,
dz = idx / 16. -/
def ChunkData.all_at (d : ChunkData) (y : Nat) : List BlockState :=
  (List.range 256).map (fun idx => d.get (idx % 16) y (idx / 16))

/-- Modelled from the spec: a chunk column is either fully materialized
(HighMemory, the Loaded variant of the spec) or a placeholder with no block
data yet. -/
inductive ChunkColumn where
  | highMemory (data : ChunkData)
  | placeholder

/-- Modelled from the spec: reading a cell of a column.  A materialized
column yields the realized stored state; a placeholder yields the unresolved
marker. -/
def ChunkColumn.get_block : ChunkColumn → Nat → Nat → Nat → BlockApprox
  | .highMemory d, x, y, z => .Realized (d.get x y z)
  | .placeholder, _, _, _ => .Unresolved

/-- Modelled from the spec: writing a cell of a column.  storage/chunk.rs is
not among the sources; the round-trip property of spec section 8 (a write is
always readable back as Realized) forces a write into a placeholder column
to materialize it, so it is modelled as materializing a default (empty)
column holding only the written block. -/
def ChunkColumn.set_block : ChunkColumn → Nat → Nat → Nat → BlockState → ChunkColumn
  | .highMemory d, x, y, z, s => .highMemory (d.set x y z s)
  | .placeholder, x, y, z, s => .highMemory (ChunkData.emptyData.set x y z s)

/-- Modelled from the spec: merging a partial update into a column
(ChunkColumn::modify, storage/chunk.rs is not among the sources).  A
materialized update replaces the stored data; a placeholder update patches
nothing.  The claims do not depend on the merge contents, only on when the
merge happens. -/
def ChunkColumn.modify : ChunkColumn → ChunkColumn → ChunkColumn
  | _, .highMemory d => .highMemory d
  | c, .placeholder => c

/-- Modelled from the spec: the column created by write-through creation
(storage.entry(loc).or_default() in set_block), a default empty loaded
column. -/
def ChunkColumn.defaultCol : ChunkColumn := .highMemory ChunkData.emptyData

/-- Lookup in the storage map.  The source uses a HashMap from ChunkLocation
to ChunkColumn; it is modelled as an association list with unique keys. -/
def lookupCol : List (ChunkLocation × ChunkColumn) → ChunkLocation → Option ChunkColumn
  | [], _ => none
  | (k, v) :: rest, c => if k = c then some v else lookupCol rest c

/-- Insert-or-replace in the storage map, the model of HashMap::insert and
of writing through an occupied or vacant entry. -/
def insertCol : List (ChunkLocation × ChunkColumn) → ChunkLocation → ChunkColumn →
    List (ChunkLocation × ChunkColumn)
  | [], c, v => [(c, v)]
  | (k, w) :: rest, c, v =>
    if k = c then (k, v) :: rest else (k, w) :: insertCol rest c v

/-- WorldBlocks from src/storage/blocks.rs: a sparse map from chunk
coordinates to chunk columns. -/
structure WorldBlocks where
  storage : List (ChunkLocation × ChunkColumn)

/-- The Default instance of WorldBlocks: an empty store. -/
def WorldBlocks.emptyWorld : WorldBlocks := ⟨[]⟩

/-- block_chunk_iter from src/storage/blocks.rs: all block locations of one
materialized chunk whose state satisfies the selector, decoding each
select_up index idx as x = idx % 16, z = (idx >> 4) % 16,
y = (idx >> 4) / 16 and offsetting by the chunk start. -/
def block_chunk_iter (loc : ChunkLocation) (column : ChunkData)
    (selector : BlockState → Bool) : List BlockLocation :=
  let start_x := 16 * loc.cx
  let start_z := 16 * loc.cz
  (column.select_up selector).map (fun idx =>
    let x : Nat := idx % 16
    let leftover : Nat := idx / 16
    let z : Nat := leftover % 16
    let y : Nat := leftover / 16
    BlockLocation.mk ((x : Int) + start_x) (y : Int) ((z : Int) + start_z))

/-- WorldBlocks::get_block from src/storage/blocks.rs.  The chunk column is
looked up first and its absence yields none; only then is the vertical bound
checked, out-of-range y yielding known air; finally the stored cell is
read. -/
def WorldBlocks.get_block (w : WorldBlocks) (location : BlockLocation) : Option BlockApprox :=
  let chunk_x := shr4 location.x
  let chunk_z := shr4 location.z
  let x := localOff location.x
  let z := localOff location.z
  match lookupCol w.storage ⟨chunk_x, chunk_z⟩ with
  | none => none
  | some column =>
    if location.y < 0 ∨ 256 ≤ location.y then
      some (BlockApprox.Realized BlockState.AIR)
    else
      some (column.get_block x location.y.toNat z)

/-- WorldBlocks::set_block from src/storage/blocks.rs.  The y coordinate is
cast i16 to u8 (modelled as emod 256); the chunk column is fetched by
write-through creation (entry(loc).or_default()) and the cell is written. -/
def WorldBlocks.set_block (w : WorldBlocks) (location : BlockLocation) (block : BlockState) :
    WorldBlocks :=
  let y := (location.y % 256).toNat
  let chunk_x := shr4 location.x
  let chunk_z := shr4 location.z
  let x := localOff location.x
  let z := localOff location.z
  let loc := ChunkLocation.mk chunk_x chunk_z
  let column := (lookupCol w.storage loc).getD ChunkColumn.defaultCol
  ⟨insertCol w.storage loc (column.set_block x y z block)⟩

/-- WorldBlocks::get_block_exact from src/storage/blocks.rs: narrows the
point query to a realized state. -/
def WorldBlocks.get_block_exact (w : WorldBlocks) (location : BlockLocation) :
    Option BlockState :=
  match w.get_block location with
  | some (.Realized state) => some state
  | _ => none

/-- WorldBlocks::get_real_column from src/storage/blocks.rs: the
materialized data of a column, none when the chunk is absent or a
placeholder. -/
def WorldBlocks.get_real_column (w : WorldBlocks) (location : ChunkLocation) :
    Option ChunkData :=
  match lookupCol w.storage location with
  | some (.highMemory data) => some data
  | _ => none

/-- WorldBlocks::add_column from src/storage/blocks.rs: insert or replace a
full column. -/
def WorldBlocks.add_column (w : WorldBlocks) (location : ChunkLocation)
    (column : ChunkColumn) : WorldBlocks :=
  ⟨insertCol w.storage location column⟩

/-- WorldBlocks::modify_column from src/storage/blocks.rs:
storage.get_mut(loc).unwrap().modify(column).  The unwrap panics when the
chunk is absent; the panic is modelled as none. -/
def WorldBlocks.modify_column (w : WorldBlocks) (location : ChunkLocation)
    (column : ChunkColumn) : Option WorldBlocks :=
  match lookupCol w.storage location with
  | none => none
  | some existing => some ⟨insertCol w.storage location (existing.modify column)⟩

/-- WorldBlocks::real_chunks from src/storage/blocks.rs: the materialized
chunks of the store, in storage enumeration order. -/
def WorldBlocks.real_chunks (w : WorldBlocks) : List (ChunkLocation × ChunkData) :=
  w.storage.filterMap (fun p =>
    match p.2 with
    | .highMemory data => some (p.1, data)
    | _ => none)

/-- usize::MAX, the unbounded chunk budget passed by closest_iter. -/
def USIZE_MAX : Nat := 2 ^ 64 - 1

/-- WorldBlocks::select from src/storage/blocks.rs: all matching locations
of up to max_chunks materialized chunks, in storage enumeration order. -/
def WorldBlocks.select (w : WorldBlocks) (_around : BlockLocation) (max_chunks : Nat)
    (selector : BlockState → Bool) : List BlockLocation :=
  (w.real_chunks.take max_chunks).flatMap (fun p => block_chunk_iter p.1 p.2 selector)

/-- Iterator::min_by_key of the source: the first element minimizing the
key, none for an empty sequence. -/
def min_by_key (key : BlockLocation → Int) : List BlockLocation → Option BlockLocation
  | [] => none
  | a :: rest =>
    match min_by_key key rest with
    | none => some a
    | some b => if key a ≤ key b then some a else some b

/-- WorldBlocks::closest from src/storage/blocks.rs: the minimum-distance
match among up to max_chunks materialized chunks. -/
def WorldBlocks.closest (w : WorldBlocks) (origin : BlockLocation) (max_chunks : Nat)
    (selector : BlockState → Bool) : Option BlockLocation :=
  min_by_key (fun loc => loc.dist2 origin) (w.select origin max_chunks selector)

/-- WorldBlocks::closest_in_chunk from src/storage/blocks.rs: the
minimum-distance match restricted to the chunk of the origin; none when that
chunk is absent or not materialized. -/
def WorldBlocks.closest_in_chunk (w : WorldBlocks) (origin : BlockLocation)
    (selector : BlockState → Bool) : Option BlockLocation :=
  let loc := chunkOf origin
  match lookupCol w.storage loc with
  | some (.highMemory data) =>
    min_by_key (fun location => origin.dist2 location) (block_chunk_iter loc data selector)
  | _ => none

/-- The comparison closest_iter orders by: non-decreasing squared distance
from the origin (the MinHeapNode key of client/pathfind.rs, which is not
among the sources, modelled from the spec). -/
def distLE (origin : BlockLocation) (a b : BlockLocation) : Prop :=
  a.dist2 origin ≤ b.dist2 origin

instance (origin a b : BlockLocation) : Decidable (distLE origin a b) :=
  inferInstanceAs (Decidable (_ ≤ _))

instance (origin : BlockLocation) : IsTotal BlockLocation (distLE origin) :=
  ⟨fun a b => le_total (a.dist2 origin) (b.dist2 origin)⟩

instance (origin : BlockLocation) : IsTrans BlockLocation (distLE origin) :=
  ⟨fun _ _ _ hab hbc => le_trans hab hbc⟩

/-- WorldBlocks::closest_iter from src/storage/blocks.rs: every match of
every materialized chunk (select with the usize::MAX budget) is pushed into
a binary heap keyed by squared distance to the origin with inverted
comparison, and the heap is drained; draining yields the elements in
non-decreasing key order, modelled as a sort by that key (the pop order of
equal keys is unspecified in the source). -/
def WorldBlocks.closest_iter (w : WorldBlocks) (origin : BlockLocation)
    (selector : BlockState → Bool) : List BlockLocation :=
  List.insertionSort (distLE origin) (w.select origin USIZE_MAX selector)

/-- The inclusive integer range lo..=hi of the source loops. -/
def intRange (lo hi : Int) : List Int :=
  (List.range (hi + 1 - lo).toNat).map (fun i => lo + (i : Int))

/-- The chunk coordinates scanned by WorldBlocks::y_slice: the chunk span of
the Chebyshev bounding square of the query, traversed x-major exactly as the
nested source loops do. -/
def ySliceChunks (origin : BlockLocation) (radius : Nat) : List ChunkLocation :=
  let r : Int := (radius : Int)
  let start_x := shr4 (origin.x - r)
  let end_x := shr4 (origin.x + r)
  let start_z := shr4 (origin.z - r)
  let end_z := shr4 (origin.z + r)
  (intRange start_x end_x).flatMap (fun cx =>
    (intRange start_z end_z).map (fun cz => ChunkLocation.mk cx cz))

/-- The per-chunk body of WorldBlocks::y_slice: the states of vertical level
y as u8 (emod 256) of one materialized column, tagged with their global
location at the original y of the origin, filtered to Chebyshev distance at
most radius and to the selector, keeping the locations. -/
def chunkHits (origin : BlockLocation) (radius : Nat) (cl : ChunkLocation)
    (column : ChunkData) (selector : BlockState → Bool) : List BlockLocation :=
  let chunk_start_x : Int := 16 * cl.cx
  let chunk_start_z : Int := 16 * cl.cz
  let states := column.all_at ((origin.y % 256).toNat)
  let tagged := states.enum.map (fun p =>
    (BlockLocation.mk (chunk_start_x + ((p.1 % 16 : Nat) : Int)) origin.y
      (chunk_start_z + ((p.1 / 16 : Nat) : Int)), p.2))
  let inRadius := tagged.filter (fun q =>
    decide (max (origin.x - q.1.x).natAbs (origin.z - q.1.z).natAbs ≤ radius))
  let selected := inRadius.filter (fun q => selector q.2)
  selected.map (fun q => q.1)

/-- The loop body of WorldBlocks::y_slice: the column of the chunk is
demanded (the source ? operator aborting the whole call when it is absent or
not materialized) and its hits are appended to the accumulator. -/
def ySliceStep (w : WorldBlocks) (origin : BlockLocation) (radius : Nat)
    (selector : BlockState → Bool) (res : List BlockLocation) (cl : ChunkLocation) :
    Option (List BlockLocation) :=
  match w.get_real_column cl with
  | none => none
  | some column => some (res ++ chunkHits origin radius cl column selector)

/-- The per-chunk result list of y_slice when the whole scan succeeds, empty
for a chunk without materialized data. -/
def hitsAt (w : WorldBlocks) (origin : BlockLocation) (radius : Nat)
    (selector : BlockState → Bool) (cl : ChunkLocation) : List BlockLocation :=
  match w.get_real_column cl with
  | none => []
  | some column => chunkHits origin radius cl column selector

/-- WorldBlocks::y_slice from src/storage/blocks.rs: scans every chunk of
the bounding square in loop order, aborting with none at the first chunk
that is absent or not materialized, and otherwise concatenates the per-chunk
hits. -/
def WorldBlocks.y_slice (w : WorldBlocks) (origin : BlockLocation) (radius : Nat)
    (selector : BlockState → Bool) : Option (List BlockLocation) :=
  (ySliceChunks origin radius).foldlM (ySliceStep w origin radius selector) []

/-- WorldBlocks::flat from src/storage/blocks.rs: a world that is stone at
y = 0 in a 100 block Chebyshev radius of the origin, built by the two nested
source loops over -100..=100. -/
def WorldBlocks.flat : WorldBlocks :=
  (intRange (-100) 100).foldl (fun world x =>
    (intRange (-100) 100).foldl (fun world z =>
      world.set_block ⟨x, 0, z⟩ BlockState.STONE) world) WorldBlocks.emptyWorld

/-- Helper for reasoning about flat: the same world expressed as one fold of
set_block with stone over a flattened location list. -/
def setAll (locs : List BlockLocation) (w : WorldBlocks) : WorldBlocks :=
  locs.foldl (fun world l => world.set_block l BlockState.STONE) w

/-- Helper for reasoning about flat: the flattened list of locations the two
nested loops of flat write, in loop order. -/
def flatLocs : List BlockLocation :=
  (intRange (-100) 100).flatMap (fun x =>
    (intRange (-100) 100).map (fun z => BlockLocation.mk x 0 z))

/-- Two block locations address the same storage cell: same global x and z
(hence the same chunk and local offsets) and the same stored row, the row a
write at l lands on being l.y cast to u8. -/
def CellEq (p l : BlockLocation) : Prop :=
  p.x = l.x ∧ p.z = l.z ∧ p.y = l.y % 256

instance (p l : BlockLocation) : Decidable (CellEq p l) :=
  inferInstanceAs (Decidable (_ ∧ _ ∧ _))

/- Helper lemmas: coordinate arithmetic. -/

theorem localOff_spec (x : Int) : (localOff x : Int) = x % 16 := by
  simp only [localOff, shr4]
  omega

theorem localOff_lt (x : Int) : localOff x < 16 := by
  simp only [localOff, shr4]
  omega

theorem coord_decomp (x : Int) : 16 * shr4 x + (localOff x : Int) = x := by
  simp only [localOff, shr4]
  omega

theorem chunkOf_mk (p : BlockLocation) : chunkOf p = ⟨shr4 p.x, shr4 p.z⟩ := rfl

/- Helper lemmas: association-list storage. -/

theorem lookup_insert_self (st : List (ChunkLocation × ChunkColumn)) (k : ChunkLocation)
    (v : ChunkColumn) : lookupCol (insertCol st k v) k = some v := by
  induction st with
  | nil => simp [insertCol, lookupCol]
  | cons h t ih =>
    by_cases hk : h.1 = k
    · simp [insertCol, hk, lookupCol]
    · simp [insertCol, hk, lookupCol, ih]

theorem lookup_insert_ne (st : List (ChunkLocation × ChunkColumn)) (k q : ChunkLocation)
    (v : ChunkColumn) (h : q ≠ k) : lookupCol (insertCol st k v) q = lookupCol st q := by
  have hk : ¬ (k = q) := fun hh => h hh.symm
  induction st with
  | nil => simp [insertCol, lookupCol, hk]
  | cons hd t ih =>
    obtain ⟨k1, v1⟩ := hd
    by_cases h1 : k1 = k
    · subst h1
      simp [insertCol, lookupCol, hk]
    · by_cases h2 : k1 = q
      · simp [insertCol, h1, lookupCol, h2, h]
      · simp [insertCol, h1, lookupCol, h2, ih]

/- Helper lemmas: reading and writing the store. -/

theorem get_block_def (w : WorldBlocks) (p : BlockLocation) :
    w.get_block p =
      match lookupCol w.storage (chunkOf p) with
      | none => none
      | some column =>
        if p.y < 0 ∨ 256 ≤ p.y then some (BlockApprox.Realized BlockState.AIR)
        else some (column.get_block (localOff p.x) p.y.toNat (localOff p.z)) := rfl

theorem set_block_def (w : WorldBlocks) (L : BlockLocation) (S : BlockState) :
    (w.set_block L S).storage =
      insertCol w.storage (chunkOf L)
        (((lookupCol w.storage (chunkOf L)).getD ChunkColumn.defaultCol).set_block
          (localOff L.x) ((L.y % 256).toNat) (localOff L.z) S) := rfl

theorem set_lookup_self (w : WorldBlocks) (L : BlockLocation) (S : BlockState) :
    lookupCol (w.set_block L S).storage (chunkOf L) =
      some (((lookupCol w.storage (chunkOf L)).getD ChunkColumn.defaultCol).set_block
        (localOff L.x) ((L.y % 256).toNat) (localOff L.z) S) := by
  rw [set_block_def, lookup_insert_self]

theorem set_lookup_ne (w : WorldBlocks) (L : BlockLocation) (S : BlockState)
    (q : ChunkLocation) (h : q ≠ chunkOf L) :
    lookupCol (w.set_block L S).storage q = lookupCol w.storage q := by
  rw [set_block_def, lookup_insert_ne _ _ _ _ h]

theorem col_set_is_high (c : ChunkColumn) (x y z : Nat) (s : BlockState) :
    ∃ d, c.set_block x y z s = ChunkColumn.highMemory d := by
  cases c <;> simp [ChunkColumn.set_block]

theorem data_set_get_eq (d : ChunkData) (x y z : Nat) (s : BlockState) :
    (d.set x y z s).get x y z = s := by
  simp [ChunkData.set, ChunkData.get]

theorem data_set_get_ne (d : ChunkData) (x y z x2 y2 z2 : Nat) (s : BlockState)
    (hx : x < 16) (hz : z < 16) (hx2 : x2 < 16) (hz2 : z2 < 16)
    (hne : ¬ (x2 = x ∧ y2 = y ∧ z2 = z)) :
    (d.set x y z s).get x2 y2 z2 = d.get x2 y2 z2 := by
  have hidx : x2 + 16 * z2 + 256 * y2 ≠ x + 16 * z + 256 * y := by omega
  simp [ChunkData.set, ChunkData.get, hidx]

theorem cellEq_chunk {p L : BlockLocation} (h : CellEq p L) : chunkOf p = chunkOf L := by
  obtain ⟨h1, h2, h3⟩ := h
  simp [chunkOf, h1, h2]

theorem cells_eq_of_cellEq {p L : BlockLocation} (h : CellEq p L) :
    localOff p.x = localOff L.x ∧ p.y.toNat = (L.y % 256).toNat ∧
      localOff p.z = localOff L.z := by
  obtain ⟨h1, h2, h3⟩ := h
  have ha := localOff_spec p.x
  have hb := localOff_spec L.x
  have hc := localOff_spec p.z
  have hd := localOff_spec L.z
  refine ⟨by omega, by omega, by omega⟩

theorem cells_ne_of_not_cellEq {p L : BlockLocation} (h0 : 0 ≤ p.y) (h1 : p.y < 256)
    (hch : chunkOf p = chunkOf L) (hnc : ¬ CellEq p L) :
    ¬ (localOff p.x = localOff L.x ∧ p.y.toNat = (L.y % 256).toNat ∧
      localOff p.z = localOff L.z) := by
  intro ⟨ha, hb, hc⟩
  apply hnc
  have hcx : shr4 p.x = shr4 L.x := congrArg ChunkLocation.cx hch
  have hcz : shr4 p.z = shr4 L.z := congrArg ChunkLocation.cz hch
  have hdx := coord_decomp p.x
  have hdLx := coord_decomp L.x
  have hdz := coord_decomp p.z
  have hdLz := coord_decomp L.z
  refine ⟨by omega, by omega, by omega⟩

/-- Workhorse, hit case: a write is read back at any location addressing the
written cell whose y is in the vertical bound. -/
theorem get_set_hit (w : WorldBlocks) (L p : BlockLocation) (S : BlockState)
    (h0 : 0 ≤ p.y) (h1 : p.y < 256) (hc : CellEq p L) :
    (w.set_block L S).get_block p = some (BlockApprox.Realized S) := by
  have hch := cellEq_chunk hc
  obtain ⟨e1, e2, e3⟩ := cells_eq_of_cellEq hc
  rw [get_block_def, hch, set_lookup_self]
  have hyr : ¬ (p.y < 0 ∨ 256 ≤ p.y) := by omega
  simp only [hyr, if_false]
  rw [e1, e2, e3]
  cases hcol : (lookupCol w.storage (chunkOf L)).getD ChunkColumn.defaultCol with
  | highMemory d =>
    simp [ChunkColumn.set_block, ChunkColumn.get_block, data_set_get_eq]
  | placeholder =>
    simp [ChunkColumn.set_block, ChunkColumn.get_block, data_set_get_eq]

/-- Workhorse, other-chunk case: a write never changes a read in a different
chunk, for any y. -/
theorem get_set_other_chunk (w : WorldBlocks) (L p : BlockLocation) (S : BlockState)
    (hch : chunkOf p ≠ chunkOf L) :
    (w.set_block L S).get_block p = w.get_block p := by
  rw [get_block_def, get_block_def, set_lookup_ne _ _ _ _ hch]

/-- Workhorse, same-chunk miss over a materialized column: the read is
unchanged. -/
theorem get_set_same_chunk_miss (w : WorldBlocks) (L p : BlockLocation) (S : BlockState)
    (d : ChunkData) (h0 : 0 ≤ p.y) (h1 : p.y < 256) (hch : chunkOf p = chunkOf L)
    (hnc : ¬ CellEq p L) (hd : lookupCol w.storage (chunkOf L) = some (ChunkColumn.highMemory d)) :
    (w.set_block L S).get_block p = w.get_block p := by
  rw [get_block_def, get_block_def, hch, set_lookup_self, hd]
  have hyr : ¬ (p.y < 0 ∨ 256 ≤ p.y) := by omega
  have hcells := cells_ne_of_not_cellEq h0 h1 hch hnc
  simp only [Option.getD_some, hyr, if_false, ChunkColumn.set_block, ChunkColumn.get_block]
  rw [data_set_get_ne _ _ _ _ _ _ _ _ (localOff_lt L.x) (localOff_lt L.z)
    (localOff_lt p.x) (localOff_lt p.z) hcells]

/-- Workhorse, same-chunk miss over an absent or placeholder column: the
read becomes the default air of the freshly materialized column. -/
theorem get_set_same_chunk_fresh (w : WorldBlocks) (L p : BlockLocation) (S : BlockState)
    (h0 : 0 ≤ p.y) (h1 : p.y < 256) (hch : chunkOf p = chunkOf L)
    (hnc : ¬ CellEq p L) (hd : w.get_real_column (chunkOf L) = none) :
    (w.set_block L S).get_block p = some (BlockApprox.Realized BlockState.AIR) := by
  rw [get_block_def, hch, set_lookup_self]
  have hyr : ¬ (p.y < 0 ∨ 256 ≤ p.y) := by omega
  have hcells := cells_ne_of_not_cellEq h0 h1 hch hnc
  have hempty : (ChunkData.emptyData.set (localOff L.x) ((L.y % 256).toNat) (localOff L.z)
      S).get (localOff p.x) p.y.toNat (localOff p.z) = BlockState.AIR := by
    rw [data_set_get_ne _ _ _ _ _ _ _ _ (localOff_lt L.x) (localOff_lt L.z)
      (localOff_lt p.x) (localOff_lt p.z) hcells]
    rfl
  unfold WorldBlocks.get_real_column at hd
  cases hcol : lookupCol w.storage (chunkOf L) with
  | none =>
    simp only [hcol, Option.getD_none, ChunkColumn.defaultCol, ChunkColumn.set_block,
      hyr, if_false, ChunkColumn.get_block, hempty]
  | some c =>
    cases c with
    | highMemory d => rw [hcol] at hd; simp at hd
    | placeholder =>
      simp only [hcol, Option.getD_some, ChunkColumn.set_block, hyr, if_false,
        ChunkColumn.get_block, hempty]

/-- A write creates or keeps a materialized column at the chunk of the
written location. -/
theorem set_real_self (w : WorldBlocks) (L : BlockLocation) (S : BlockState) :
    ∃ d, lookupCol (w.set_block L S).storage (chunkOf L) = some (ChunkColumn.highMemory d) := by
  rw [set_lookup_self]
  obtain ⟨d, hd⟩ := col_set_is_high
    ((lookupCol w.storage (chunkOf L)).getD ChunkColumn.defaultCol)
    (localOff L.x) ((L.y % 256).toNat) (localOff L.z) S
  exact ⟨d, by rw [hd]⟩

/- Helper lemmas: the real-column view. -/

theorem get_real_some_iff (w : WorldBlocks) (cl : ChunkLocation) (d : ChunkData) :
    w.get_real_column cl = some d ↔
      lookupCol w.storage cl = some (ChunkColumn.highMemory d) := by
  unfold WorldBlocks.get_real_column
  cases h : lookupCol w.storage cl with
  | none => simp
  | some c => cases c <;> simp

theorem get_real_none_of_lookup_none (w : WorldBlocks) (cl : ChunkLocation)
    (h : lookupCol w.storage cl = none) : w.get_real_column cl = none := by
  unfold WorldBlocks.get_real_column
  rw [h]

/- Helper lemmas: iterated writes (for reasoning about flat). -/

theorem setAll_cons (l : BlockLocation) (ls : List BlockLocation) (w : WorldBlocks) :
    setAll (l :: ls) w = setAll ls (w.set_block l BlockState.STONE) := rfl

theorem setAll_pres (locs : List BlockLocation) (w : WorldBlocks) (p : BlockLocation)
    (h0 : 0 ≤ p.y) (h1 : p.y < 256)
    (hhigh : ∃ d, lookupCol w.storage (chunkOf p) = some (ChunkColumn.highMemory d))
    (hnone : ∀ l ∈ locs, ¬ CellEq p l) :
    (setAll locs w).get_block p = w.get_block p ∧
      ∃ d, lookupCol (setAll locs w).storage (chunkOf p) =
        some (ChunkColumn.highMemory d) := by
  induction locs generalizing w with
  | nil => exact ⟨rfl, hhigh⟩
  | cons l ls ih =>
    rw [setAll_cons]
    have hnl : ¬ CellEq p l := hnone l (by simp)
    have hns : ∀ q ∈ ls, ¬ CellEq p q := fun q hq => hnone q (by simp [hq])
    by_cases hch : chunkOf p = chunkOf l
    · obtain ⟨d, hd⟩ := hhigh
      rw [hch] at hd
      have hstep : (w.set_block l BlockState.STONE).get_block p = w.get_block p :=
        get_set_same_chunk_miss w l p _ d h0 h1 hch hnl hd
      have hhigh2 : ∃ d2, lookupCol (w.set_block l BlockState.STONE).storage (chunkOf p) =
          some (ChunkColumn.highMemory d2) := by
        rw [hch]
        exact set_real_self w l BlockState.STONE
      obtain ⟨hg, hh⟩ := ih (w.set_block l BlockState.STONE) hhigh2 hns
      exact ⟨by rw [hg, hstep], hh⟩
    · have hstep := get_set_other_chunk w l p BlockState.STONE hch
      have hhigh2 : ∃ d2, lookupCol (w.set_block l BlockState.STONE).storage (chunkOf p) =
          some (ChunkColumn.highMemory d2) := by
        rw [set_lookup_ne w l BlockState.STONE (chunkOf p) hch]
        exact hhigh
      obtain ⟨hg, hh⟩ := ih (w.set_block l BlockState.STONE) hhigh2 hns
      exact ⟨by rw [hg, hstep], hh⟩

theorem setAll_stone (locs : List BlockLocation) (w : WorldBlocks) (p : BlockLocation)
    (h0 : 0 ≤ p.y) (h1 : p.y < 256) (hmem : ∃ l ∈ locs, CellEq p l) :
    (setAll locs w).get_block p = some (BlockApprox.Realized BlockState.STONE) := by
  induction locs generalizing w with
  | nil => simp at hmem
  | cons l ls ih =>
    rw [setAll_cons]
    by_cases htail : ∃ q ∈ ls, CellEq p q
    · exact ih (w.set_block l BlockState.STONE) htail
    · have hl : CellEq p l := by
        obtain ⟨q, hq, hc⟩ := hmem
        rcases List.mem_cons.mp hq with rfl | hq2
        · exact hc
        · exact absurd ⟨q, hq2, hc⟩ htail
      have hns : ∀ q ∈ ls, ¬ CellEq p q := fun q hq hc => htail ⟨q, hq, hc⟩
      have hstep := get_set_hit w l p BlockState.STONE h0 h1 hl
      have hch := cellEq_chunk hl
      have hhigh2 : ∃ d, lookupCol (w.set_block l BlockState.STONE).storage (chunkOf p) =
          some (ChunkColumn.highMemory d) := by
        rw [hch]
        exact set_real_self w l BlockState.STONE
      obtain ⟨hg, _⟩ := setAll_pres ls (w.set_block l BlockState.STONE) p h0 h1 hhigh2 hns
      rw [hg, hstep]

theorem setAll_air (locs : List BlockLocation) (w : WorldBlocks) (p : BlockLocation)
    (h0 : 0 ≤ p.y) (h1 : p.y < 256) (hnever : ∀ l ∈ locs, ¬ CellEq p l)
    (habsent : lookupCol w.storage (chunkOf p) = none)
    (htouch : ∃ l ∈ locs, chunkOf l = chunkOf p) :
    (setAll locs w).get_block p = some (BlockApprox.Realized BlockState.AIR) := by
  induction locs generalizing w with
  | nil => simp at htouch
  | cons l ls ih =>
    rw [setAll_cons]
    have hnl : ¬ CellEq p l := hnever l (by simp)
    have hns : ∀ q ∈ ls, ¬ CellEq p q := fun q hq => hnever q (by simp [hq])
    by_cases hch : chunkOf l = chunkOf p
    · have hreal : w.get_real_column (chunkOf l) = none := by
        apply get_real_none_of_lookup_none
        rw [hch]
        exact habsent
      have hstep := get_set_same_chunk_fresh w l p BlockState.STONE h0 h1 hch.symm hnl hreal
      have hhigh2 : ∃ d, lookupCol (w.set_block l BlockState.STONE).storage (chunkOf p) =
          some (ChunkColumn.highMemory d) := by
        rw [← hch]
        exact set_real_self w l BlockState.STONE
      obtain ⟨hg, _⟩ := setAll_pres ls (w.set_block l BlockState.STONE) p h0 h1 hhigh2 hns
      rw [hg, hstep]
    · have hchpn : chunkOf p ≠ chunkOf l := fun hh => hch hh.symm
      have habsent2 : lookupCol (w.set_block l BlockState.STONE).storage (chunkOf p) = none := by
        rw [set_lookup_ne w l BlockState.STONE (chunkOf p) hchpn]
        exact habsent
      have htouch2 : ∃ q ∈ ls, chunkOf q = chunkOf p := by
        obtain ⟨q, hq, hc⟩ := htouch
        rcases List.mem_cons.mp hq with rfl | hq2
        · exact absurd hc hch
        · exact ⟨q, hq2, hc⟩
      exact ih (w.set_block l BlockState.STONE) hns habsent2 htouch2

/- Helper lemmas: integer ranges and the flat generator. -/

theorem mem_intRange {lo hi a : Int} : a ∈ intRange lo hi ↔ lo ≤ a ∧ a ≤ hi := by
  simp [intRange]
  constructor
  · rintro ⟨b, ⟨i, hi2, rfl⟩, rfl⟩
    omega
  · rintro ⟨h1, h2⟩
    exact ⟨a - lo, ⟨(a - lo).toNat, by omega, by omega⟩, by omega⟩

theorem foldl_flatMap {α β γ : Type} (g : α → List β) (f : γ → β → γ) (l : List α)
    (init : γ) :
    (l.flatMap g).foldl f init = l.foldl (fun acc a => (g a).foldl f acc) init := by
  induction l generalizing init with
  | nil => rfl
  | cons a t ih => simp [List.flatMap_cons, List.foldl_append, ih]

set_option maxRecDepth 10000 in
theorem flat_eq_setAll : WorldBlocks.flat = setAll flatLocs WorldBlocks.emptyWorld := by
  rw [WorldBlocks.flat, setAll, flatLocs, foldl_flatMap]
  congr 1

theorem mem_flatLocs {p : BlockLocation} :
    p ∈ flatLocs ↔ -100 ≤ p.x ∧ p.x ≤ 100 ∧ p.y = 0 ∧ -100 ≤ p.z ∧ p.z ≤ 100 := by
  simp only [flatLocs, List.mem_flatMap, List.mem_map]
  constructor
  · rintro ⟨x, hx, z, hz, rfl⟩
    have hx2 := mem_intRange.mp hx
    have hz2 := mem_intRange.mp hz
    exact ⟨hx2.1, hx2.2, rfl, hz2.1, hz2.2⟩
  · rintro ⟨h1, h2, hy, h3, h4⟩
    refine ⟨p.x, mem_intRange.mpr ⟨h1, h2⟩, p.z, mem_intRange.mpr ⟨h3, h4⟩, ?_⟩
    cases p
    simp_all

/- Helper lemmas: min_by_key. -/

theorem min_by_key_none_iff (key : BlockLocation → Int) (l : List BlockLocation) :
    min_by_key key l = none ↔ l = [] := by
  cases l with
  | nil => simp [min_by_key]
  | cons a t =>
    simp only [min_by_key]
    cases h : min_by_key key t with
    | none => simp
    | some b =>
      by_cases hle : key a ≤ key b <;> simp [hle]

theorem min_by_key_mem (key : BlockLocation → Int) (l : List BlockLocation)
    (a : BlockLocation) (h : min_by_key key l = some a) : a ∈ l := by
  induction l with
  | nil => simp [min_by_key] at h
  | cons b t ih =>
    simp only [min_by_key] at h
    cases hm : min_by_key key t with
    | none =>
      rw [hm] at h
      simp at h
      simp [h]
    | some c =>
      rw [hm] at h
      by_cases hle : key b ≤ key c
      · simp [hle] at h
        simp [h]
      · simp [hle] at h
        subst h
        exact List.mem_cons_of_mem b (ih hm)

theorem min_by_key_le (key : BlockLocation → Int) (l : List BlockLocation) :
    ∀ a, min_by_key key l = some a → ∀ b ∈ l, key a ≤ key b := by
  induction l with
  | nil => simp
  | cons b t ih =>
    intro a h
    simp only [min_by_key] at h
    cases hm : min_by_key key t with
    | none =>
      rw [hm] at h
      simp at h
      subst h
      have ht : t = [] := (min_by_key_none_iff key t).mp hm
      subst ht
      simp
    | some c =>
      rw [hm] at h
      by_cases hle : key b ≤ key c
      · simp [hle] at h
        subst h
        intro q hq
        rcases List.mem_cons.mp hq with rfl | hq2
        · exact le_refl _
        · exact le_trans hle (ih c hm q hq2)
      · simp [hle] at h
        subst h
        intro q hq
        rcases List.mem_cons.mp hq with rfl | hq2
        · omega
        · exact ih c hm q hq2

/- Helper lemmas: chunk-local iteration. -/

theorem mem_block_chunk_iter {cl : ChunkLocation} {d : ChunkData}
    {sel : BlockState → Bool} {p : BlockLocation} :
    p ∈ block_chunk_iter cl d sel ↔
      chunkOf p = cl ∧ 0 ≤ p.y ∧ p.y < 256 ∧
        sel (d.get (localOff p.x) p.y.toNat (localOff p.z)) = true := by
  simp only [block_chunk_iter, ChunkData.select_up, List.mem_map, List.mem_filter,
    List.mem_range]
  constructor
  · rintro ⟨idx, ⟨hlt, hsel⟩, rfl⟩
    obtain ⟨cx, cz⟩ := cl
    refine ⟨?_, ?_, ?_, ?_⟩
    · show ChunkLocation.mk (shr4 ((idx % 16 : Nat) + 16 * cx))
        (shr4 ((idx / 16 % 16 : Nat) + 16 * cz)) = ChunkLocation.mk cx cz
      rw [ChunkLocation.mk.injEq]
      constructor
      · show ((idx % 16 : Nat) + 16 * cx) / 16 = cx
        omega
      · show ((idx / 16 % 16 : Nat) + 16 * cz) / 16 = cz
        omega
    · show (0 : Int) ≤ ((idx / 16 / 16 : Nat) : Int)
      omega
    · show ((idx / 16 / 16 : Nat) : Int) < 256
      omega
    · show sel (d.get (localOff ((idx % 16 : Nat) + 16 * cx))
        (Int.toNat ((idx / 16 / 16 : Nat) : Int)) (localOff ((idx / 16 % 16 : Nat) + 16 * cz))) = true
      have hx : localOff ((idx % 16 : Nat) + 16 * cx) = idx % 16 := by
        simp only [localOff, shr4]
        omega
      have hz : localOff ((idx / 16 % 16 : Nat) + 16 * cz) = idx / 16 % 16 := by
        simp only [localOff, shr4]
        omega
      have hy : Int.toNat ((idx / 16 / 16 : Nat) : Int) = idx / 16 / 16 := by omega
      rw [hx, hz, hy]
      have hidx : idx % 16 + 16 * (idx / 16 % 16) + 256 * (idx / 16 / 16) = idx := by omega
      show sel (d (idx % 16 + 16 * (idx / 16 % 16) + 256 * (idx / 16 / 16))) = true
      rw [hidx]
      exact hsel
  · rintro ⟨hcl, h0, h1, hsel⟩
    have hcx : cl.cx = shr4 p.x := by
      rw [← hcl]
      rfl
    have hcz : cl.cz = shr4 p.z := by
      rw [← hcl]
      rfl
    have hlx := localOff_lt p.x
    have hlz := localOff_lt p.z
    have hdx := coord_decomp p.x
    have hdz := coord_decomp p.z
    refine ⟨localOff p.x + 16 * localOff p.z + 256 * p.y.toNat, ⟨by omega, ?_⟩, ?_⟩
    · exact hsel
    · have e1 : (((localOff p.x + 16 * localOff p.z + 256 * p.y.toNat) % 16 : Nat) : Int) +
          16 * cl.cx = p.x := by
        rw [hcx]
        omega
      have e2 : (((localOff p.x + 16 * localOff p.z + 256 * p.y.toNat) / 16 / 16 : Nat) : Int) =
          p.y := by omega
      have e3 : (((localOff p.x + 16 * localOff p.z + 256 * p.y.toNat) / 16 % 16 : Nat) : Int) +
          16 * cl.cz = p.z := by
        rw [hcz]
        omega
      rw [e1, e2, e3]

theorem get_exact_char (w : WorldBlocks) (p : BlockLocation) (s : BlockState)
    (h0 : 0 ≤ p.y) (h1 : p.y < 256) :
    w.get_block_exact p = some s ↔
      ∃ d, lookupCol w.storage (chunkOf p) = some (ChunkColumn.highMemory d) ∧
        s = d.get (localOff p.x) p.y.toNat (localOff p.z) := by
  have hyr : ¬ (p.y < 0 ∨ 256 ≤ p.y) := by omega
  unfold WorldBlocks.get_block_exact
  rw [get_block_def]
  cases h : lookupCol w.storage (chunkOf p) with
  | none => simp
  | some c =>
    cases c with
    | highMemory d =>
      simp only [hyr, if_false, ChunkColumn.get_block, Option.some.injEq]
      constructor
      · rintro rfl
        exact ⟨d, rfl, rfl⟩
      · rintro ⟨d2, hd2, rfl⟩
        simp only [Option.some.injEq, ChunkColumn.highMemory.injEq] at hd2
        rw [hd2]
    | placeholder =>
      simp only [hyr, if_false, ChunkColumn.get_block]
      constructor
      · intro hh
        simp at hh
      · rintro ⟨d2, hd2, rfl⟩
        simp at hd2

/- Helper lemmas: y_slice. -/

theorem all_at_getElem (d : ChunkData) (row i : Nat) (st : BlockState) :
    (d.all_at row)[i]? = some st ↔ i < 256 ∧ st = d.get (i % 16) row (i / 16) := by
  unfold ChunkData.all_at
  rw [List.getElem?_map]
  by_cases h : i < 256
  · rw [List.getElem?_range h]
    simp [eq_comm, h]
  · have hnone : (List.range 256)[i]? = none := by
      rw [List.getElem?_eq_none]
      simp
      omega
    simp [hnone, h]

theorem mem_chunkHits {origin : BlockLocation} {radius : Nat} {cl : ChunkLocation}
    {d : ChunkData} {sel : BlockState → Bool} {p : BlockLocation} :
    p ∈ chunkHits origin radius cl d sel ↔
      ∃ idx, idx < 256 ∧
        p = BlockLocation.mk (16 * cl.cx + ((idx % 16 : Nat) : Int)) origin.y
          (16 * cl.cz + ((idx / 16 : Nat) : Int)) ∧
        max (origin.x - p.x).natAbs (origin.z - p.z).natAbs ≤ radius ∧
        sel (d.get (idx % 16) ((origin.y % 256).toNat) (idx / 16)) = true := by
  unfold chunkHits
  constructor
  · intro h
    obtain ⟨q, hq, hqp⟩ := List.mem_map.mp h
    obtain ⟨hq1, hq2⟩ := List.mem_filter.mp hq
    obtain ⟨hq3, hq4⟩ := List.mem_filter.mp hq1
    obtain ⟨pr, hpr, hprq⟩ := List.mem_map.mp hq3
    obtain ⟨i, st⟩ := pr
    have hst := List.mem_enum_iff_getElem?.mp hpr
    obtain ⟨hilt, hsti⟩ := (all_at_getElem d _ i st).mp hst
    refine ⟨i, hilt, ?_, ?_, ?_⟩
    · rw [← hqp, ← hprq]
    · rw [hqp] at hq4
      simpa using hq4
    · rw [← hprq] at hq2
      simp only at hq2
      rw [← hsti]
      exact hq2
  · rintro ⟨idx, hilt, hp, hrad, hsel⟩
    apply List.mem_map.mpr
    refine ⟨(p, d.get (idx % 16) ((origin.y % 256).toNat) (idx / 16)), ?_, rfl⟩
    apply List.mem_filter.mpr
    refine ⟨?_, hsel⟩
    apply List.mem_filter.mpr
    constructor
    · apply List.mem_map.mpr
      refine ⟨(idx, d.get (idx % 16) ((origin.y % 256).toNat) (idx / 16)), ?_, ?_⟩
      · exact List.mem_enum_iff_getElem?.mpr ((all_at_getElem d _ idx _).mpr ⟨hilt, rfl⟩)
      · simp only
        rw [← hp]
    · simp only [decide_eq_true_eq]
      exact hrad

theorem mem_ySliceChunks {origin : BlockLocation} {radius : Nat} {cl : ChunkLocation} :
    cl ∈ ySliceChunks origin radius ↔
      shr4 (origin.x - (radius : Int)) ≤ cl.cx ∧ cl.cx ≤ shr4 (origin.x + (radius : Int)) ∧
      shr4 (origin.z - (radius : Int)) ≤ cl.cz ∧ cl.cz ≤ shr4 (origin.z + (radius : Int)) := by
  simp only [ySliceChunks, List.mem_flatMap, List.mem_map]
  constructor
  · rintro ⟨cx, hx, cz, hz, rfl⟩
    have h1 := mem_intRange.mp hx
    have h2 := mem_intRange.mp hz
    exact ⟨h1.1, h1.2, h2.1, h2.2⟩
  · rintro ⟨h1, h2, h3, h4⟩
    obtain ⟨cx, cz⟩ := cl
    exact ⟨cx, mem_intRange.mpr ⟨h1, h2⟩, cz, mem_intRange.mpr ⟨h3, h4⟩, rfl⟩

theorem yfold_none (w : WorldBlocks) (origin : BlockLocation) (radius : Nat)
    (sel : BlockState → Bool) (chunks : List ChunkLocation) (init : List BlockLocation)
    (h : ∃ cl ∈ chunks, w.get_real_column cl = none) :
    chunks.foldlM (ySliceStep w origin radius sel) init = none := by
  induction chunks generalizing init with
  | nil => simp at h
  | cons c cs ih =>
    cases hc : w.get_real_column c with
    | none => simp [List.foldlM, ySliceStep, hc]
    | some col =>
      have h2 : ∃ cl ∈ cs, w.get_real_column cl = none := by
        obtain ⟨cl, hcl, hnone⟩ := h
        rcases List.mem_cons.mp hcl with rfl | hm
        · rw [hc] at hnone
          exact absurd hnone (by simp)
        · exact ⟨cl, hm, hnone⟩
      simp only [List.foldlM, ySliceStep, hc]
      show List.foldlM (ySliceStep w origin radius sel)
        (init ++ chunkHits origin radius c col sel) cs = none
      exact ih _ h2

theorem yfold_all (w : WorldBlocks) (origin : BlockLocation) (radius : Nat)
    (sel : BlockState → Bool) (chunks : List ChunkLocation) (init : List BlockLocation)
    (h : ∀ cl ∈ chunks, (w.get_real_column cl).isSome = true) :
    chunks.foldlM (ySliceStep w origin radius sel) init =
      some (init ++ chunks.flatMap (hitsAt w origin radius sel)) := by
  induction chunks generalizing init with
  | nil => simp
  | cons c cs ih =>
    have hc := h c (by simp)
    cases hc2 : w.get_real_column c with
    | none =>
      rw [hc2] at hc
      simp at hc
    | some col =>
      have h2 : ∀ cl ∈ cs, (w.get_real_column cl).isSome = true := fun cl hcl =>
        h cl (by simp [hcl])
      simp only [List.foldlM, ySliceStep, hc2]
      show List.foldlM (ySliceStep w origin radius sel)
        (init ++ chunkHits origin radius c col sel) cs =
        some (init ++ (c :: cs).flatMap (hitsAt w origin radius sel))
      rw [ih _ h2]
      simp [hitsAt, hc2, List.flatMap_cons, List.append_assoc]

/- Small extensionality helper for block locations. -/

theorem blockLoc_ext {p q : BlockLocation} (hx : p.x = q.x) (hy : p.y = q.y)
    (hz : p.z = q.z) : p = q := by
  cases p
  cases q
  simp_all

theorem closest_in_chunk_def (w : WorldBlocks) (origin : BlockLocation)
    (selector : BlockState → Bool) :
    w.closest_in_chunk origin selector =
      match lookupCol w.storage (chunkOf origin) with
      | some (.highMemory data) =>
        min_by_key (fun location => origin.dist2 location)
          (block_chunk_iter (chunkOf origin) data selector)
      | _ => none := rfl

/-- Claim C8: locations with equal floor quotients of x and z by 16 map to
the same chunk; the mapping is floor division (arithmetic shift), so
negative coordinates map consistently.  The second conjunct pins the mapping
to the floor quotients themselves. -/
theorem C8_theorem (L1 L2 : BlockLocation)
    (hx : Int.fdiv L1.x 16 = Int.fdiv L2.x 16)
    (hz : Int.fdiv L1.z 16 = Int.fdiv L2.z 16) :
    chunkOf L1 = chunkOf L2 ∧
      chunkOf L1 = ⟨Int.fdiv L1.x 16, Int.fdiv L1.z 16⟩ := by
  have e : ∀ a : Int, Int.fdiv a 16 = shr4 a := fun a => by
    rw [Int.fdiv_eq_ediv _ (by norm_num)]
    rfl
  constructor
  · show ChunkLocation.mk (shr4 L1.x) (shr4 L1.z) = ChunkLocation.mk (shr4 L2.x) (shr4 L2.z)
    rw [← e, ← e, ← e, ← e, hx, hz]
  · show ChunkLocation.mk (shr4 L1.x) (shr4 L1.z) =
      ChunkLocation.mk (Int.fdiv L1.x 16) (Int.fdiv L1.z 16)
    rw [e, e]

/-- Claim C8 witness: block x = -1 and x = -16 (and likewise z) share chunk
(-1, -1). -/
theorem C8_witness :
    chunkOf ⟨-1, 0, -1⟩ = chunkOf ⟨-16, 7, -16⟩ ∧
      chunkOf ⟨-1, 0, -1⟩ = ⟨Int.fdiv (-1) 16, Int.fdiv (-1) 16⟩ :=
  C8_theorem ⟨-1, 0, -1⟩ ⟨-16, 7, -16⟩ (by decide) (by decide)

/-- Claim C6: modify_column aborts (modelled as none, the source unwrap
panic) exactly when no column is stored at the target chunk; it never
creates the chunk and never succeeds as a no-op.  When a column is present
the merge result replaces it in the store. -/
theorem C6_theorem (w : WorldBlocks) (location : ChunkLocation) (column : ChunkColumn) :
    (w.modify_column location column = none ↔ lookupCol w.storage location = none) ∧
    ∀ c, lookupCol w.storage location = some c →
      w.modify_column location column =
        some ⟨insertCol w.storage location (c.modify column)⟩ := by
  unfold WorldBlocks.modify_column
  cases h : lookupCol w.storage location with
  | none => simp
  | some c =>
    constructor
    · simp
    · intro c2 hc2
      injection hc2 with hcc
      rw [hcc]

/-- Claim C6 witness: merging into a store holding a placeholder column at
the target chunk succeeds and rewrites that entry with the merge result. -/
theorem C6_witness :
    (⟨[(⟨0, 0⟩, ChunkColumn.placeholder)]⟩ : WorldBlocks).modify_column ⟨0, 0⟩
        ChunkColumn.placeholder =
      some ⟨insertCol [(⟨0, 0⟩, ChunkColumn.placeholder)] ⟨0, 0⟩
        (ChunkColumn.placeholder.modify ChunkColumn.placeholder)⟩ :=
  (C6_theorem ⟨[(⟨0, 0⟩, ChunkColumn.placeholder)]⟩ ⟨0, 0⟩ ChunkColumn.placeholder).2
    ChunkColumn.placeholder rfl

/-- Claim C1 counterexample: with an empty store (the chunk of (0, 300, 0)
absent), get_block at out-of-range y = 300 returns none, not known air: the
source looks the chunk up and returns early before the vertical-bound
check. -/
theorem C1_counterexample :
    ¬ ((WorldBlocks.mk []).get_block ⟨0, 300, 0⟩ =
      some (BlockApprox.Realized BlockState.AIR)) := by decide

/-- Claim C1 as amended: when the chunk of L is present in the store (loaded
or placeholder), get_block at out-of-range y always returns known air,
independent of the chunk contents; when the chunk is absent it returns
none. -/
theorem C1_theorem (w : WorldBlocks) (L : BlockLocation)
    (hpresent : (lookupCol w.storage (chunkOf L)).isSome = true)
    (hy : L.y < 0 ∨ 256 ≤ L.y) :
    w.get_block L = some (BlockApprox.Realized BlockState.AIR) := by
  rw [get_block_def]
  cases h : lookupCol w.storage (chunkOf L) with
  | none =>
    rw [h] at hpresent
    simp at hpresent
  | some c =>
    simp only
    rw [if_pos hy]

/-- Claim C1 witness: a store whose chunk (0, 0) exists reads known air at
(0, 300, 0). -/
theorem C1_witness :
    (WorldBlocks.emptyWorld.set_block ⟨0, 0, 0⟩ BlockState.STONE).get_block ⟨0, 300, 0⟩ =
      some (BlockApprox.Realized BlockState.AIR) :=
  C1_theorem _ ⟨0, 300, 0⟩ (by decide) (Or.inr (by decide))

/-- Claim C2 counterexample: writing stone at (0, 300, 0) and reading the
same location back yields known air (the vertical-bound early return), not
the written stone: the write landed at y = 300 mod 256 = 44. -/
theorem C2_counterexample :
    ¬ ((WorldBlocks.emptyWorld.set_block ⟨0, 300, 0⟩ BlockState.STONE).get_block ⟨0, 300, 0⟩ =
      some (BlockApprox.Realized BlockState.STONE)) := by decide

/-- Claim C2 as amended: for every store, state, and location whose y lies
in the vertical bound [0, 256), set_block followed by get_block at the same
location yields Realized of the written state. -/
theorem C2_theorem (w : WorldBlocks) (L : BlockLocation) (S : BlockState)
    (h0 : 0 ≤ L.y) (h1 : L.y < 256) :
    (w.set_block L S).get_block L = some (BlockApprox.Realized S) :=
  get_set_hit w L L S h0 h1 ⟨rfl, rfl, by omega⟩

/-- Claim C2 witness: the round trip at (0, 5, 0) with stone on the empty
store. -/
theorem C2_witness :
    (WorldBlocks.emptyWorld.set_block ⟨0, 5, 0⟩ BlockState.STONE).get_block ⟨0, 5, 0⟩ =
      some (BlockApprox.Realized BlockState.STONE) :=
  C2_theorem WorldBlocks.emptyWorld ⟨0, 5, 0⟩ BlockState.STONE (by decide) (by decide)

/-- Claim C10: a write at out-of-range y does not fail and is not
discarded: the y coordinate is cast i16 to u8, so the state is stored at
vertical level y mod 256 of the same (x, z) column and reads back realized
there. -/
theorem C10_theorem (w : WorldBlocks) (L : BlockLocation) (S : BlockState)
    (_hy : L.y < 0 ∨ 256 ≤ L.y) :
    (w.set_block L S).get_block ⟨L.x, L.y % 256, L.z⟩ =
      some (BlockApprox.Realized S) :=
  get_set_hit w L ⟨L.x, L.y % 256, L.z⟩ S
    (by show (0 : Int) ≤ L.y % 256; omega)
    (by show L.y % 256 < 256; omega)
    ⟨rfl, rfl, rfl⟩

/-- Claim C10 witness: a write at y = 256 changes the block at y = 0 of the
same column. -/
theorem C10_witness :
    (WorldBlocks.emptyWorld.set_block ⟨0, 256, 0⟩ BlockState.STONE).get_block ⟨0, 0, 0⟩ =
      some (BlockApprox.Realized BlockState.STONE) :=
  C10_theorem WorldBlocks.emptyWorld ⟨0, 256, 0⟩ BlockState.STONE (Or.inr (by decide))

/-- Claim C9 counterexample: on the empty store, writing stone at (0, 0, 0)
changes the read at the distinct location (1, 0, 0) from none (chunk absent)
to known air, because the write creates a default column for the whole
chunk. -/
theorem C9_counterexample :
    ¬ ((WorldBlocks.emptyWorld.set_block ⟨0, 0, 0⟩ BlockState.STONE).get_block ⟨1, 0, 0⟩ =
      WorldBlocks.emptyWorld.get_block ⟨1, 0, 0⟩) := by decide

/-- Claim C9 as amended: a write at L leaves the read at any other location
p unchanged provided p lies in a different chunk, or the chunk of L already
holds a materialized column and the y of L is within the vertical bound
(otherwise the write can materialize the chunk, changing same-chunk reads
from absent to air, or alias another cell through y mod 256). -/
theorem C9_theorem (w : WorldBlocks) (L : BlockLocation) (S : BlockState)
    (p : BlockLocation) (hne : p ≠ L)
    (h : chunkOf p ≠ chunkOf L ∨
      ((∃ d, lookupCol w.storage (chunkOf L) = some (ChunkColumn.highMemory d)) ∧
        0 ≤ L.y ∧ L.y < 256)) :
    (w.set_block L S).get_block p = w.get_block p := by
  rcases h with h | ⟨⟨d, hd⟩, hL0, hL1⟩
  · exact get_set_other_chunk w L p S h
  · by_cases hch : chunkOf p = chunkOf L
    · by_cases hy : 0 ≤ p.y ∧ p.y < 256
      · have hnc : ¬ CellEq p L := by
          intro hc
          apply hne
          exact blockLoc_ext hc.1 (by have := hc.2.2; omega) hc.2.1
        exact get_set_same_chunk_miss w L p S d hy.1 hy.2 hch hnc hd
      · have hyr : p.y < 0 ∨ 256 ≤ p.y := by omega
        have hdp : lookupCol w.storage (chunkOf p) = some (ChunkColumn.highMemory d) := by
          rw [hch]
          exact hd
        obtain ⟨d2, hd2⟩ := set_real_self w L S
        have hd2p : lookupCol (w.set_block L S).storage (chunkOf p) =
            some (ChunkColumn.highMemory d2) := by
          rw [hch]
          exact hd2
        rw [get_block_def, get_block_def, hdp, hd2p]
        simp [hyr]
    · exact get_set_other_chunk w L p S hch

/-- Claim C9 witness: with chunk (0, 0) already materialized by a prior
write at (3, 0, 3), a write at (0, 0, 0) leaves the read at (1, 0, 0)
unchanged. -/
theorem C9_witness :
    ((WorldBlocks.emptyWorld.set_block ⟨3, 0, 3⟩ BlockState.STONE).set_block ⟨0, 0, 0⟩
        BlockState.STONE).get_block ⟨1, 0, 0⟩ =
      (WorldBlocks.emptyWorld.set_block ⟨3, 0, 3⟩ BlockState.STONE).get_block ⟨1, 0, 0⟩ :=
  C9_theorem _ ⟨0, 0, 0⟩ _ ⟨1, 0, 0⟩ (by decide)
    (Or.inr ⟨⟨_, rfl⟩, by decide, by decide⟩)

/-- Claim C3: the flat generator produces stone at every y = 0 position
within the 100-block Chebyshev radius of the origin; (0, 0, 0) reads the
ground block exactly, while the never-written positions (0, 1, 0) and
(101, 0, 0) read the default air of their (created) chunks. -/
theorem C3_theorem :
    (∀ x z : Int, -100 ≤ x → x ≤ 100 → -100 ≤ z → z ≤ 100 →
      WorldBlocks.flat.get_block_exact ⟨x, 0, z⟩ = some BlockState.STONE) ∧
    WorldBlocks.flat.get_block_exact ⟨0, 0, 0⟩ = some BlockState.STONE ∧
    WorldBlocks.flat.get_block_exact ⟨0, 1, 0⟩ = some BlockState.AIR ∧
    WorldBlocks.flat.get_block_exact ⟨101, 0, 0⟩ = some BlockState.AIR := by
  have hex : ∀ (w : WorldBlocks) (q : BlockLocation) (s : BlockState),
      w.get_block q = some (BlockApprox.Realized s) →
      w.get_block_exact q = some s := by
    intro w q s h
    unfold WorldBlocks.get_block_exact
    rw [h]
  have hstone : ∀ x z : Int, -100 ≤ x → x ≤ 100 → -100 ≤ z → z ≤ 100 →
      WorldBlocks.flat.get_block ⟨x, 0, z⟩ =
        some (BlockApprox.Realized BlockState.STONE) := by
    intro x z h1 h2 h3 h4
    rw [flat_eq_setAll]
    apply setAll_stone flatLocs WorldBlocks.emptyWorld ⟨x, 0, z⟩
      (by norm_num) (by norm_num)
    refine ⟨⟨x, 0, z⟩, mem_flatLocs.mpr ⟨h1, h2, rfl, h3, h4⟩, rfl, rfl, ?_⟩
    show (0 : Int) = 0 % 256
    decide
  have hair1 : WorldBlocks.flat.get_block ⟨0, 1, 0⟩ =
      some (BlockApprox.Realized BlockState.AIR) := by
    rw [flat_eq_setAll]
    apply setAll_air flatLocs WorldBlocks.emptyWorld ⟨0, 1, 0⟩ (by norm_num) (by norm_num)
    · intro l hl hc
      have hly := (mem_flatLocs.mp hl).2.2.1
      have := hc.2.2
      simp only at this
      omega
    · rfl
    · exact ⟨⟨0, 0, 0⟩, mem_flatLocs.mpr (by norm_num), rfl⟩
  have hair2 : WorldBlocks.flat.get_block ⟨101, 0, 0⟩ =
      some (BlockApprox.Realized BlockState.AIR) := by
    rw [flat_eq_setAll]
    apply setAll_air flatLocs WorldBlocks.emptyWorld ⟨101, 0, 0⟩ (by norm_num) (by norm_num)
    · intro l hl hc
      have hlx := (mem_flatLocs.mp hl).2.1
      have := hc.1
      simp only at this
      omega
    · rfl
    · exact ⟨⟨100, 0, 0⟩, mem_flatLocs.mpr (by norm_num), by decide⟩
  exact ⟨fun x z h1 h2 h3 h4 => hex _ _ _ (hstone x z h1 h2 h3 h4),
    hex _ _ _ (hstone 0 0 (by norm_num) (by norm_num) (by norm_num) (by norm_num)),
    hex _ _ _ hair1, hex _ _ _ hair2⟩

/-- Claim C3 witness: the ground block at the interior point (5, 0, -7) of
the flat world. -/
theorem C3_witness :
    WorldBlocks.flat.get_block_exact ⟨5, 0, -7⟩ = some BlockState.STONE :=
  C3_theorem.1 5 (-7) (by decide) (by decide) (by decide) (by decide)

/-- Claim C7: closest_in_chunk is strictly chunk-local.  It returns none
when the chunk of the origin has no materialized data (absent or
placeholder) and none when that chunk has no matching position — regardless
of matches anywhere else in the store — and any position it returns is a
match inside the origin chunk minimizing squared distance to the origin
among that chunk's matches. -/
theorem C7_theorem (w : WorldBlocks) (origin : BlockLocation)
    (selector : BlockState → Bool) :
    (w.get_real_column (chunkOf origin) = none →
      w.closest_in_chunk origin selector = none) ∧
    (∀ p, w.closest_in_chunk origin selector = some p →
      ∃ d, w.get_real_column (chunkOf origin) = some d ∧
        p ∈ block_chunk_iter (chunkOf origin) d selector ∧
        chunkOf p = chunkOf origin ∧
        ∀ q ∈ block_chunk_iter (chunkOf origin) d selector,
          origin.dist2 p ≤ origin.dist2 q) ∧
    (∀ d, w.get_real_column (chunkOf origin) = some d →
      block_chunk_iter (chunkOf origin) d selector = [] →
      w.closest_in_chunk origin selector = none) := by
  cases h : lookupCol w.storage (chunkOf origin) with
  | none =>
    refine ⟨fun _ => by simp [closest_in_chunk_def, h], ?_, ?_⟩
    · intro p hp
      rw [closest_in_chunk_def, h] at hp
      simp at hp
    · intro d hd hemp
      simp [closest_in_chunk_def, h]
  | some c =>
    cases c with
    | placeholder =>
      refine ⟨fun _ => by simp [closest_in_chunk_def, h], ?_, ?_⟩
      · intro p hp
        rw [closest_in_chunk_def, h] at hp
        simp at hp
      · intro d hd hemp
        simp [closest_in_chunk_def, h]
    | highMemory d =>
      have hreal : w.get_real_column (chunkOf origin) = some d :=
        (get_real_some_iff w (chunkOf origin) d).mpr h
      refine ⟨?_, ?_, ?_⟩
      · intro habs
        exact absurd (hreal.symm.trans habs) (by simp)
      · intro p hp
        rw [closest_in_chunk_def, h] at hp
        simp only at hp
        refine ⟨d, hreal, min_by_key_mem _ _ _ hp, ?_, ?_⟩
        · exact (mem_block_chunk_iter.mp (min_by_key_mem _ _ _ hp)).1
        · exact min_by_key_le _ _ p hp
      · intro d2 hd2 hemp
        have hdd : d2 = d := (Option.some.inj (hreal.symm.trans hd2)).symm
        subst hdd
        rw [closest_in_chunk_def, h]
        simp only
        rw [hemp]
        rfl

/-- Claim C7 witness: on the empty store (origin chunk unresolved),
closest_in_chunk returns none. -/
theorem C7_witness :
    WorldBlocks.emptyWorld.closest_in_chunk ⟨0, 0, 0⟩ (fun _ => true) = none :=
  (C7_theorem WorldBlocks.emptyWorld ⟨0, 0, 0⟩ (fun _ => true)).1 rfl

/-- Claim C5: the sequence produced by closest_iter is ordered by
non-decreasing squared distance to the origin, and the positions it yields
are exactly those scanned by closest when given the unbounded (usize::MAX)
chunk budget, i.e. every match of every materialized chunk. -/
theorem C5_theorem (w : WorldBlocks) (origin : BlockLocation)
    (selector : BlockState → Bool) :
    List.Sorted (distLE origin) (w.closest_iter origin selector) ∧
    ∀ p, p ∈ w.closest_iter origin selector ↔
      p ∈ w.select origin USIZE_MAX selector := by
  constructor
  · exact List.sorted_insertionSort (distLE origin) (w.select origin USIZE_MAX selector)
  · intro p
    exact (List.perm_insertionSort (distLE origin)
      (w.select origin USIZE_MAX selector)).mem_iff

/-- Claim C4, part (a) as stated and part (b) amended with the vertical
bound: if any chunk of the bounding square is unresolved, y_slice is none,
even with zero matches elsewhere; when all those chunks are materialized and
the origin y lies within [0, 256), the result is exactly the set of
positions at the origin vertical level within Chebyshev distance radius
whose stored state satisfies the selector. -/
theorem C4_theorem (w : WorldBlocks) (origin : BlockLocation) (radius : Nat)
    (selector : BlockState → Bool) :
    ((∃ cl ∈ ySliceChunks origin radius, w.get_real_column cl = none) →
      w.y_slice origin radius selector = none) ∧
    ((∀ cl ∈ ySliceChunks origin radius, (w.get_real_column cl).isSome = true) →
      0 ≤ origin.y → origin.y < 256 →
      ∃ res, w.y_slice origin radius selector = some res ∧
        ∀ p, p ∈ res ↔
          (p.y = origin.y ∧
            max (origin.x - p.x).natAbs (origin.z - p.z).natAbs ≤ radius ∧
            ∃ s, w.get_block_exact p = some s ∧ selector s = true)) := by
  constructor
  · intro h
    exact yfold_none w origin radius selector (ySliceChunks origin radius) [] h
  · intro hall h0 h1
    refine ⟨(ySliceChunks origin radius).flatMap (hitsAt w origin radius selector), ?_, ?_⟩
    · have := yfold_all w origin radius selector (ySliceChunks origin radius) [] hall
      rw [List.nil_append] at this
      exact this
    · intro p
      constructor
      · intro hp
        obtain ⟨cl, hcl, hpcl⟩ := List.mem_flatMap.mp hp
        cases hc : w.get_real_column cl with
        | none =>
          unfold hitsAt at hpcl
          rw [hc] at hpcl
          simp at hpcl
        | some col =>
          unfold hitsAt at hpcl
          rw [hc] at hpcl
          simp only at hpcl
          obtain ⟨idx, hilt, hpeq, hrad, hsel⟩ := mem_chunkHits.mp hpcl
          subst hpeq
          obtain ⟨ccx, ccz⟩ := cl
          refine ⟨rfl, hrad, ?_⟩
          refine ⟨col.get (idx % 16) ((origin.y % 256).toNat) (idx / 16), ?_, hsel⟩
          apply (get_exact_char w (BlockLocation.mk (16 * ccx + ((idx % 16 : Nat) : Int))
            origin.y (16 * ccz + ((idx / 16 : Nat) : Int)))
            (col.get (idx % 16) ((origin.y % 256).toNat) (idx / 16)) h0 h1).mpr
          have hclp : chunkOf (BlockLocation.mk (16 * ccx + ((idx % 16 : Nat) : Int))
              origin.y (16 * ccz + ((idx / 16 : Nat) : Int))) = ChunkLocation.mk ccx ccz := by
            show ChunkLocation.mk (shr4 (16 * ccx + ((idx % 16 : Nat) : Int)))
              (shr4 (16 * ccz + ((idx / 16 : Nat) : Int))) = ChunkLocation.mk ccx ccz
            rw [ChunkLocation.mk.injEq]
            constructor
            · show (16 * ccx + ((idx % 16 : Nat) : Int)) / 16 = ccx
              omega
            · show (16 * ccz + ((idx / 16 : Nat) : Int)) / 16 = ccz
              omega
          refine ⟨col, ?_, ?_⟩
          · rw [hclp]
            exact (get_real_some_iff w (ChunkLocation.mk ccx ccz) col).mp hc
          · have ea : localOff (16 * ccx + ((idx % 16 : Nat) : Int)) = idx % 16 := by
              simp only [localOff, shr4]
              omega
            have eb : localOff (16 * ccz + ((idx / 16 : Nat) : Int)) = idx / 16 := by
              simp only [localOff, shr4]
              omega
            show col.get (idx % 16) ((origin.y % 256).toNat) (idx / 16) =
              col.get (localOff (16 * ccx + ((idx % 16 : Nat) : Int))) origin.y.toNat
                (localOff (16 * ccz + ((idx / 16 : Nat) : Int)))
            rw [ea, eb]
            have ec : (origin.y % 256).toNat = origin.y.toNat := by omega
            rw [ec]
      · rintro ⟨hpy, hrad, s, hex, hsel⟩
        have hp0 : 0 ≤ p.y := by omega
        have hp1 : p.y < 256 := by omega
        obtain ⟨d, hd, hs⟩ := (get_exact_char w p s hp0 hp1).mp hex
        have hax : (origin.x - p.x).natAbs ≤ radius :=
          le_trans (le_max_left _ _) hrad
        have haz : (origin.z - p.z).natAbs ≤ radius :=
          le_trans (le_max_right _ _) hrad
        apply List.mem_flatMap.mpr
        refine ⟨chunkOf p, ?_, ?_⟩
        · apply mem_ySliceChunks.mpr
          refine ⟨?_, ?_, ?_, ?_⟩
          · show shr4 (origin.x - (radius : Int)) ≤ shr4 p.x
            simp only [shr4]
            omega
          · show shr4 p.x ≤ shr4 (origin.x + (radius : Int))
            simp only [shr4]
            omega
          · show shr4 (origin.z - (radius : Int)) ≤ shr4 p.z
            simp only [shr4]
            omega
          · show shr4 p.z ≤ shr4 (origin.z + (radius : Int))
            simp only [shr4]
            omega
        · have hgr : w.get_real_column (chunkOf p) = some d :=
            (get_real_some_iff w (chunkOf p) d).mpr hd
          unfold hitsAt
          rw [hgr]
          show p ∈ chunkHits origin radius (chunkOf p) d selector
          apply mem_chunkHits.mpr
          have hlx := localOff_lt p.x
          have hlz := localOff_lt p.z
          have hdx := coord_decomp p.x
          have hdz := coord_decomp p.z
          refine ⟨localOff p.x + 16 * localOff p.z, by omega, ?_, hrad, ?_⟩
          · apply (blockLoc_ext ?_ ?_ ?_).symm
            · show 16 * (chunkOf p).cx +
                (((localOff p.x + 16 * localOff p.z) % 16 : Nat) : Int) = p.x
              show 16 * shr4 p.x +
                (((localOff p.x + 16 * localOff p.z) % 16 : Nat) : Int) = p.x
              omega
            · exact hpy.symm
            · show 16 * (chunkOf p).cz +
                (((localOff p.x + 16 * localOff p.z) / 16 : Nat) : Int) = p.z
              show 16 * shr4 p.z +
                (((localOff p.x + 16 * localOff p.z) / 16 : Nat) : Int) = p.z
              omega
          · have e1 : (localOff p.x + 16 * localOff p.z) % 16 = localOff p.x := by omega
            have e2 : (localOff p.x + 16 * localOff p.z) / 16 = localOff p.z := by omega
            have e3 : (origin.y % 256).toNat = p.y.toNat := by omega
            rw [e1, e2, e3, ← hs]
            exact hsel

/-- Claim C4 witness: on the empty store the single bounding-square chunk of
a radius-0 query is absent, so y_slice returns none. -/
theorem C4_witness :
    WorldBlocks.emptyWorld.y_slice ⟨0, 0, 0⟩ 0 (fun _ => true) = none :=
  (C4_theorem WorldBlocks.emptyWorld ⟨0, 0, 0⟩ 0 (fun _ => true)).1
    ⟨⟨0, 0⟩, by decide, rfl⟩

/-- Claim C4 counterexample: with stone stored at (0, 44, 0) and the query
origin at (0, 300, 0) with radius 0, the bounding square consists of the
single materialized chunk (0, 0), yet y_slice returns the position
(0, 300, 0) whose resolved state is known air and fails the stone selector:
the level actually scanned is y mod 256 = 44, so the result is not the set
of positions at the queried level whose state satisfies the predicate. -/
theorem C4_counterexample :
    ySliceChunks ⟨0, 300, 0⟩ 0 = [⟨0, 0⟩] ∧
    ((WorldBlocks.emptyWorld.set_block ⟨0, 44, 0⟩
      BlockState.STONE).get_real_column ⟨0, 0⟩).isSome = true ∧
    (WorldBlocks.emptyWorld.set_block ⟨0, 44, 0⟩ BlockState.STONE).y_slice ⟨0, 300, 0⟩ 0
      (fun s => decide (s = BlockState.STONE)) = some [⟨0, 300, 0⟩] ∧
    (WorldBlocks.emptyWorld.set_block ⟨0, 44, 0⟩ BlockState.STONE).get_block_exact
      ⟨0, 300, 0⟩ = some BlockState.AIR ∧
    decide (BlockState.AIR = BlockState.STONE) = false := by
  refine ⟨by decide, by decide, by decide, by decide, by decide⟩
